import Mathlib

/-!
Pinyin decomposition engine: a shallow embedding of the HMM (Hanzi Movie
Method) syllable parser — tone extraction, initial/final classification and
identifier mapping — together with theorems settling the specification's
claims about it.

Strings are modelled as `List Char`: Go iterates the string's runes with
`range`, and the one byte-indexed access (`pinyin[0]` in the single-consonant
branch) agrees with rune access whenever the first rune is ASCII, while for a
non-ASCII first rune both the byte and the rune fail the consonant test, so
the branch taken is the same. Tones are `Nat` (`hmm.Tone` is a Go `int` with
constants 0 to 5).
-/

namespace HMM

/-- Record holding the HMM-relevant parts of a pinyin syllable:
full form, initial, final and tone. -/
structure ParsedPinyin where
  full : List Char
  initial : List Char
  final : List Char
  tone : Nat
deriving DecidableEq, Repr

/-- The `toneMarks` map of `extractTone` as an association list: each of the
24 diacritic vowels paired with its base vowel and tone number. -/
def toneMarks : List (Char × Char × Nat) :=
  [('ā', 'a', 1), ('á', 'a', 2), ('ǎ', 'a', 3), ('à', 'a', 4),
   ('ē', 'e', 1), ('é', 'e', 2), ('ě', 'e', 3), ('è', 'e', 4),
   ('ī', 'i', 1), ('í', 'i', 2), ('ǐ', 'i', 3), ('ì', 'i', 4),
   ('ō', 'o', 1), ('ó', 'o', 2), ('ǒ', 'o', 3), ('ò', 'o', 4),
   ('ū', 'u', 1), ('ú', 'u', 2), ('ǔ', 'u', 3), ('ù', 'u', 4),
   ('ǖ', 'ü', 1), ('ǘ', 'ü', 2), ('ǚ', 'ü', 3), ('ǜ', 'ü', 4)]

/-- Lookup in the tone-mark table: the base vowel and tone for a diacritic
vowel, `none` for every other rune. -/
def toneMark (c : Char) : Option (Char × Nat) :=
  (toneMarks.find? fun e => e.1 == c).map Prod.snd

/-- The rune loop of `extractTone`: threads the `tone` variable (initially
the unknown sentinel 0) left to right, rewriting each tone-marked vowel to
its base vowel and overwriting the recorded tone. -/
def extractToneLoop : List Char → Nat → Nat × List Char
  | [], tone => (tone, [])
  | c :: cs, tone =>
    match toneMark c with
    | some bt =>
      let r := extractToneLoop cs bt.2
      (r.1, bt.1 :: r.2)
    | none =>
      let r := extractToneLoop cs tone
      (r.1, c :: r.2)

/-- Embedding of `extractTone`: returns the tone number and the pinyin
without tone marks; a still-unknown tone (0) defaults to neutral tone 5. -/
def extractTone (pinyin : List Char) : Nat × List Char :=
  let r := extractToneLoop pinyin 0
  (if r.1 = 0 then 5 else r.1, r.2)

/-- The 13-entry `hmmFinals` literal of `extractInitialFinal`, in source
order: ong, ang, eng, ing, ai, ei, ao, ou, an, en, a, o, e. -/
def hmmFinals : List (List Char) :=
  [['o','n','g'], ['a','n','g'], ['e','n','g'], ['i','n','g'],
   ['a','i'], ['e','i'], ['a','o'], ['o','u'], ['a','n'], ['e','n'],
   ['a'], ['o'], ['e']]

/-- Embedding of Go's string trim-front helper: drop `pre` from the front of
`l` when it is a prefix, otherwise return `l` unchanged. -/
def trimPre (pre l : List Char) : List Char :=
  if pre.isPrefixOf l then l.drop pre.length else l

/-- Embedding of `matchFinal`: exact match against the finals list, then the
floating-vowel normalization rules, then the bare-glide and empty cases, then
the permissive fallback returning the residual unchanged. -/
def matchFinal (rest : List Char) (finals : List (List Char)) : List Char :=
  if rest ∈ finals then rest
  else if ['i','n','g'].isSuffixOf rest then ['e','n','g']
  else if rest = ['i','n'] ∨ ['i','n'].isSuffixOf rest then ['e','n']
  else if rest = ['u','n'] ∨ ['u','n'].isSuffixOf rest then ['e','n']
  else if rest = ['i','o','n','g'] ∨ ['i','o','n','g'].isSuffixOf rest then ['o','n','g']
  else if rest = ['n'] then ['e','n']
  else if rest = ['n','g'] then ['e','n','g']
  else if rest = [] ∨ rest = ['i'] ∨ rest = ['u'] ∨ rest = ['ü'] then []
  else rest

/-- The `fakeI` set of `extractWithInitial`: consonants whose trailing "i" is
syllabic, not a glide. -/
def fakeI : List (List Char) :=
  [['z','h'], ['c','h'], ['s','h'], ['r'], ['z'], ['c'], ['s']]

/-- Embedding of `extractWithInitial`, the compound-initial resolver. The
j/q/x branches return only when `rest` starts with "u" or "i"; otherwise
control falls through to the ü/v, i and u checks exactly as in the source
(including the double trim of "ü" then "v" in the ü/v branch). -/
def extractWithInitial (consonant rest : List Char) (finals : List (List Char)) :
    List Char × List Char :=
  if rest = [] then (consonant, [])
  else if (consonant = ['j'] ∨ consonant = ['q'] ∨ consonant = ['x'])
      ∧ ['u'].isPrefixOf rest then
    if rest = ['u'] then (consonant ++ ['u'], [])
    else (consonant ++ ['u'], matchFinal (trimPre ['u'] rest) finals)
  else if (consonant = ['j'] ∨ consonant = ['q'] ∨ consonant = ['x'])
      ∧ ['i'].isPrefixOf rest then
    if rest = ['i'] then (consonant ++ ['i'], [])
    else (consonant ++ ['i'], matchFinal (trimPre ['i'] rest) finals)
  else if ['ü'].isPrefixOf rest ∨ ['v'].isPrefixOf rest then
    if rest = ['ü'] ∨ rest = ['v'] then (consonant ++ ['ü'], [])
    else (consonant ++ ['ü'],
      matchFinal (trimPre ['v'] (trimPre ['ü'] rest)) finals)
  else if ['i'].isPrefixOf rest ∧ ¬ consonant ∈ fakeI then
    if rest = ['i'] then (consonant ++ ['i'], [])
    else (consonant ++ ['i'], matchFinal (trimPre ['i'] rest) finals)
  else if ['u'].isPrefixOf rest
      ∧ ¬ (consonant = ['j'] ∨ consonant = ['q'] ∨ consonant = ['x']) then
    if rest = ['u'] then (consonant ++ ['u'], [])
    else (consonant ++ ['u'], matchFinal (trimPre ['u'] rest) finals)
  else (consonant, matchFinal rest finals)

/-- Case folding as the engine needs it: ASCII letters fold to lower case and
the precomposed capital 'Ü' folds to 'ü'; every character the branches of the
classifier compare against is ASCII or 'ü', so this agrees with Go's
`strings.ToLower` on the alphabet the engine inspects. -/
def goToLower (c : Char) : Char :=
  if 'A' ≤ c ∧ c ≤ 'Z' then Char.ofNat (c.toNat + 32)
  else if c = 'Ü' then 'ü' else c

/-- Embedding of `isConsonant`: membership of the lower-cased rune in the
consonant letter string "bpmfdtnlgkhjqxzhchshrzcs". -/
def isConsonant (c : Char) : Bool :=
  ['b','p','m','f','d','t','n','l','g','k','h','j','q','x',
   'z','h','c','h','s','h','r','z','c','s'].contains (goToLower c)

/-- Embedding of `extractInitialFinal`: lower-cases, then tries the y and w
null-initial branches, the yu branch, the zh/ch/sh clusters, a single
consonant, and the null-initial fallback, in source order (the yu branch
sits after the y branch, as in the source). -/
def extractInitialFinal (p : List Char) : List Char × List Char :=
  let pinyin := p.map goToLower
  if ['y'].isPrefixOf pinyin then
    if pinyin = ['y','i'] ∨ pinyin = ['y'] then (['y'], [])
    else
      let rest := trimPre ['y'] pinyin
      let rest := if ['i'].isPrefixOf rest then trimPre ['i'] rest else rest
      (['y'], matchFinal rest hmmFinals)
  else if ['w'].isPrefixOf pinyin then
    if pinyin = ['w','u'] ∨ pinyin = ['w'] then (['w'], [])
    else
      let rest := trimPre ['w'] pinyin
      let rest := if ['u'].isPrefixOf rest then trimPre ['u'] rest else rest
      (['w'], matchFinal rest hmmFinals)
  else if ['y','u'].isPrefixOf pinyin then
    if pinyin = ['y','u'] then (['y','u'], [])
    else (['y','u'], matchFinal (trimPre ['y','u'] pinyin) hmmFinals)
  else if ['z','h'].isPrefixOf pinyin then
    extractWithInitial ['z','h'] (trimPre ['z','h'] pinyin) hmmFinals
  else if ['c','h'].isPrefixOf pinyin then
    extractWithInitial ['c','h'] (trimPre ['c','h'] pinyin) hmmFinals
  else if ['s','h'].isPrefixOf pinyin then
    extractWithInitial ['s','h'] (trimPre ['s','h'] pinyin) hmmFinals
  else
    match pinyin with
    | [] => ([], matchFinal [] hmmFinals)
    | c :: rest =>
      if isConsonant c then extractWithInitial [c] rest hmmFinals
      else ([], matchFinal (c :: rest) hmmFinals)

/-- Embedding of `Parse`: records the original input in the full field,
extracts the tone, then the initial and final from the tone-stripped
string. -/
def Parse (pinyin : List Char) : ParsedPinyin :=
  let t := extractTone pinyin
  let r := extractInitialFinal t.2
  { full := pinyin, initial := r.1, final := r.2, tone := t.1 }

/-- Embedding of `GetActorID`: an empty initial maps to "null", otherwise
each 'ü' is replaced by 'v' (`strings.ReplaceAll` on the one-character
pattern). -/
def GetActorID (initial : List Char) : List Char :=
  if initial = [] then ['n','u','l','l']
  else initial.map (fun c => if c = 'ü' then 'v' else c)

/-- Embedding of `GetSetID`: an empty final maps to "null", otherwise the
final is returned unchanged. -/
def GetSetID (final : List Char) : List Char :=
  if final = [] then ['n','u','l','l'] else final

/-! Helper lemmas about the tone extractor. -/

/-- Every tone stored in the tone-mark table is between 1 and 4. -/
theorem toneMark_tone_range {c : Char} {bt : Char × Nat}
    (h : toneMark c = some bt) : 1 ≤ bt.2 ∧ bt.2 ≤ 4 := by
  unfold toneMark at h
  obtain ⟨e, he, rfl⟩ := Option.map_eq_some'.1 h
  have hm : e ∈ toneMarks := List.mem_of_find?_eq_some he
  have hall : ∀ x ∈ toneMarks, 1 ≤ x.2.2 ∧ x.2.2 ≤ 4 := by decide
  exact hall e hm

/-- The threaded tone of the extraction loop never exceeds 4 when its
accumulator does not. -/
theorem extractToneLoop_fst_le (p : List Char) :
    ∀ t0, t0 ≤ 4 → (extractToneLoop p t0).1 ≤ 4 := by
  induction p with
  | nil => intro t0 h; simpa [extractToneLoop] using h
  | cons c cs ih =>
    intro t0 h
    unfold extractToneLoop
    cases hm : toneMark c with
    | some bt => simpa [hm] using ih bt.2 (toneMark_tone_range hm).2
    | none => simpa [hm] using ih t0 h

/-- Discharging the default of `getLast?` through a cons. -/
theorem getLast?_getD_cons (a d : Nat) (l : List Nat) :
    ((a :: l).getLast?).getD d = (l.getLast?).getD a := by
  cases l with
  | nil => rfl
  | cons b t =>
    rw [List.getLast?_cons_cons,
      List.getLast?_eq_getLast_of_ne_nil (List.cons_ne_nil b t)]
    rfl

/-- Closed form of the extraction loop: the stripped string is a pointwise
map replacing marked vowels by their bases, and the resulting tone is the
last recorded mark, the accumulator when none occurs. -/
theorem extractToneLoop_eq (p : List Char) : ∀ t0 : Nat,
    extractToneLoop p t0 =
      (((p.filterMap fun c => (toneMark c).map Prod.snd).getLast?).getD t0,
       p.map fun c => ((toneMark c).map Prod.fst).getD c) := by
  induction p with
  | nil => intro t0; rfl
  | cons c cs ih =>
    intro t0
    unfold extractToneLoop
    cases hm : toneMark c with
    | some bt =>
      simp only [hm, ih bt.2, List.filterMap_cons, Option.map_some',
        List.map_cons, Option.getD_some]
      rw [getLast?_getD_cons]
    | none =>
      simp only [hm, ih t0, List.filterMap_cons, Option.map_none',
        List.map_cons, Option.getD_none]

/-! Theorems settling the claims. -/

/-- C1: contrary to the claim, a syllable starting with "yu" is taken by the
generic "y" branch, which runs first in the source; the dedicated "yu" branch
is unreachable. On input "yu" the parser returns initial "y" (not "yu"), and
on "yuán" it returns initial "y" with final "uan" rather than initial "yu"
with final "an". -/
theorem yu_input_takes_y_branch :
    Parse ['y','u'] = ⟨['y','u'], ['y'], [], 5⟩ ∧
    Parse ['y','u','á','n'] = ⟨['y','u','á','n'], ['y'], ['u','a','n'], 2⟩ ∧
    extractInitialFinal ['y','u'] = (['y'], []) := by decide

/-- C2 counterexample: the finals list contains four 3-letter entries, and
the exact residual "ing" is caught by the exact-equality rule, so the matcher
returns "ing" itself, not "eng". -/
theorem ing_final_counterexample :
    matchFinal ['i','n','g'] hmmFinals = ['i','n','g'] ∧
    ['i','n','g'] ≠ ['e','n','g'] ∧
    (hmmFinals.countP fun f => f.length = 3) = 4 := by decide

/-- C2 amended: the canonical final list has 13 entries — four 3-letter
finals (including "ing"), six 2-letter finals and three 1-letter finals; the
matcher sends every residual that ends in "ing", except the exact residual
"ing" itself, to "eng", while exact "ing" is returned unchanged. -/
theorem final_set_composition_and_ing :
    hmmFinals.length = 13 ∧
    (hmmFinals.countP fun f => f.length = 3) = 4 ∧
    (hmmFinals.countP fun f => f.length = 2) = 6 ∧
    (hmmFinals.countP fun f => f.length = 1) = 3 ∧
    matchFinal ['i','n','g'] hmmFinals = ['i','n','g'] ∧
    ∀ rest : List Char, ['i','n','g'].isSuffixOf rest = true →
      rest ≠ ['i','n','g'] → matchFinal rest hmmFinals = ['e','n','g'] := by
  refine ⟨by decide, by decide, by decide, by decide, by decide, ?_⟩
  intro rest hsuf hne
  have hmem : rest ∉ hmmFinals := by
    intro hmem
    simp only [hmmFinals, List.mem_cons, List.not_mem_nil, or_false] at hmem
    rcases hmem with rfl | rfl | rfl | rfl | rfl | rfl | rfl | rfl | rfl | rfl | rfl | rfl | rfl
    all_goals first
      | exact hne rfl
      | exact absurd hsuf (by decide)
  unfold matchFinal
  rw [if_neg hmem, if_pos hsuf]

/-- C2 witness: the amended rule applied to the concrete residual "ping". -/
theorem final_set_composition_and_ing_witness :
    (['i','n','g'].isSuffixOf ['p','i','n','g'] = true) ∧
    (['p','i','n','g'] ≠ ['i','n','g']) ∧
    matchFinal ['p','i','n','g'] hmmFinals = ['e','n','g'] :=
  ⟨by decide, by decide,
    final_set_composition_and_ing.2.2.2.2.2 ['p','i','n','g'] (by decide) (by decide)⟩

/-- C3 counterexample: "nv" carries no diacritic, so its tone is the neutral
5, not 3 as the claim states. -/
theorem nv_neutral_tone_counterexample :
    Parse ['n','v'] = ⟨['n','v'], ['n','ü'], [], 5⟩ ∧
    (Parse ['n','v']).tone ≠ 3 := by decide

/-- C3 amended: "nǚ" decomposes to initial "nü", empty final, tone 3; the
ASCII-substituted "nv" yields the same initial and final but neutral tone 5,
because the tone mark is what carries the tone. -/
theorem nv_nue_decomposition :
    Parse ['n','ǚ'] = ⟨['n','ǚ'], ['n','ü'], [], 3⟩ ∧
    Parse ['n','v'] = ⟨['n','v'], ['n','ü'], [], 5⟩ := by decide

/-- C4: the tone extractor maps the input pointwise — each tone-marked vowel
becomes its base vowel, every other codepoint passes through unchanged — and
the returned tone is the last tone mark encountered in the left-to-right
scan, defaulting to 5 when no diacritic occurs. -/
theorem tone_extractor_characterization (p : List Char) :
    (extractTone p).2 = (p.map fun c => ((toneMark c).map Prod.fst).getD c) ∧
    (extractTone p).1 =
      ((p.filterMap fun c => (toneMark c).map Prod.snd).getLast?).getD 5 := by
  have h := extractToneLoop_eq p 0
  refine ⟨by simp [extractTone, h], ?_⟩
  simp only [extractTone, h]
  have hpos : ∀ x ∈ (p.filterMap fun c => (toneMark c).map Prod.snd), 1 ≤ x := by
    intro x hx
    obtain ⟨c, _, hfc⟩ := List.mem_filterMap.1 hx
    obtain ⟨bt, hbt, rfl⟩ := Option.map_eq_some'.1 hfc
    exact (toneMark_tone_range hbt).1
  generalize (p.filterMap fun c => (toneMark c).map Prod.snd) = l at hpos ⊢
  cases l with
  | nil => rfl
  | cons a t =>
    rw [List.getLast?_eq_getLast_of_ne_nil (List.cons_ne_nil a t)]
    have h1 := hpos _ (List.getLast_mem (List.cons_ne_nil a t))
    simp only [Option.getD_some]
    rw [if_neg (by omega)]

/-- C5: for every consonant in the fake-i exception set, a remainder that
begins with "i" does not trigger the i-class compound-initial rule — the
consonant stands alone and the untouched remainder goes to the final
matcher; in particular "shì" parses to initial "sh", empty final, tone 4. -/
theorem fake_i_no_compound (c rest : List Char) (hc : c ∈ fakeI)
    (hi : ['i'].isPrefixOf rest = true) :
    extractWithInitial c rest hmmFinals = (c, matchFinal rest hmmFinals) ∧
    Parse ['s','h','ì'] = ⟨['s','h','ì'], ['s','h'], [], 4⟩ := by
  refine ⟨?_, by decide⟩
  obtain ⟨t, rfl⟩ : ∃ t, rest = 'i' :: t := by
    cases rest with
    | nil => simp [List.isPrefixOf] at hi
    | cons a t =>
      have ha : 'i' = a := by simpa [List.isPrefixOf] using hi
      exact ⟨t, by rw [← ha]⟩
  simp only [fakeI, List.mem_cons, List.not_mem_nil, or_false] at hc
  rcases hc with rfl | rfl | rfl | rfl | rfl | rfl | rfl <;>
    simp [extractWithInitial, fakeI, List.isPrefixOf]

/-- C5 witness: the fake-i rule applied to consonant "z" with remainder
"in". -/
theorem fake_i_no_compound_witness :
    (['z'] ∈ fakeI) ∧ (['i'].isPrefixOf ['i','n'] = true) ∧
    extractWithInitial ['z'] ['i','n'] hmmFinals =
      (['z'], matchFinal ['i','n'] hmmFinals) :=
  ⟨by decide, by decide,
    (fake_i_no_compound ['z'] ['i','n'] (by decide) (by decide)).1⟩

/-- C6: the matcher normalizes the bare nasal codas — exact residual "n"
resolves to "en" and exact residual "ng" to "eng" — and consequently "lín"
parses to initial "li", final "en", tone 2. -/
theorem bare_nasal_coda_normalization :
    matchFinal ['n'] hmmFinals = ['e','n'] ∧
    matchFinal ['n','g'] hmmFinals = ['e','n','g'] ∧
    Parse ['l','í','n'] = ⟨['l','í','n'], ['l','i'], ['e','n'], 2⟩ := by decide

/-- C7: the identifier mapper is total — the empty initial and the empty
final map to the literal "null"; a non-empty initial is returned with every
'ü' replaced by 'v' (so "nü" becomes "nv"), and a non-empty final is
returned unchanged. -/
theorem identifier_mapper_contract :
    GetActorID [] = ['n','u','l','l'] ∧ GetSetID [] = ['n','u','l','l'] ∧
    (∀ ini : List Char, ini ≠ [] →
      GetActorID ini = ini.map fun c => if c = 'ü' then 'v' else c) ∧
    (∀ fnl : List Char, fnl ≠ [] → GetSetID fnl = fnl) ∧
    GetActorID ['n','ü'] = ['n','v'] := by
  refine ⟨by decide, by decide, ?_, ?_, by decide⟩
  · intro ini h
    simp [GetActorID, h]
  · intro fnl h
    simp [GetSetID, h]

/-- C7 witness: the mapper contract applied to the initial "lü" and the
final "ao". -/
theorem identifier_mapper_contract_witness :
    (['l','ü'] ≠ ([] : List Char)) ∧
    GetActorID ['l','ü'] = (['l','ü'].map fun c => if c = 'ü' then 'v' else c) ∧
    (['a','o'] ≠ ([] : List Char)) ∧ GetSetID ['a','o'] = ['a','o'] :=
  ⟨by decide, identifier_mapper_contract.2.2.1 ['l','ü'] (by decide),
   by decide, identifier_mapper_contract.2.2.2.1 ['a','o'] (by decide)⟩

/-- C8: on every input the parser returns a tone between 1 and 5; the
unknown sentinel 0 never appears in a returned record. -/
theorem parse_tone_range (p : List Char) :
    1 ≤ (Parse p).tone ∧ (Parse p).tone ≤ 5 ∧ (Parse p).tone ≠ 0 := by
  have hle := extractToneLoop_fst_le p 0 (by decide)
  have ht : (Parse p).tone = (extractTone p).1 := rfl
  rw [ht]
  simp only [extractTone]
  split <;> omega

/-- C9: the full field of the parse result is the original input string,
unmodified, whatever the other fields compute to. -/
theorem parse_full_unmodified (p : List Char) : (Parse p).full = p := rfl

/-- C10: the empty string parses to the null-initial, null-final record with
neutral tone 5, not an error. -/
theorem parse_empty_input : Parse [] = ⟨[], [], [], 5⟩ := by decide

end HMM
